import Mathlib

/-!
Shallow embedding of the auto-release-tool step engine
(src/auto_release_tool): the data model (Step, StepResult), the
ProcessManager execution engine (input validation, sequential step
execution, best-effort rollback, result history), the VersionManager
specialization (version-format validation, original-version capture,
version rollback) and the ErrorManager specialization.

Python actions may mutate an external world and may raise; they are
modelled as functions from the run argument and a world value to an
outcome (Except for raised errors, Bool for the return value the engine
coerces with bool) and an updated world. Console output is pure
reporting and is abstracted away; instead the engine emits a trace of
the calls it makes (each step execution, the rollback invocation
together with its argument list, and each compensating-action
invocation), which makes invocation-order properties statable.
-/

namespace AutoRelease

/-- Exceptions are modelled by their message text. -/
abbrev Exc := String

/-- Python callables used as step actions: they take the run argument
and the external world, and either return a value (already coerced to
Bool, as the engine does with bool) or raise. -/
abbrev Action (σ α : Type) : Type := α → σ → Except Exc Bool × σ

/-- Translation of data/step.py: a process step with a main function, a
description and an optional rollback function. -/
structure Step (σ α : Type) where
  func : Action σ α
  description : String
  rollback_func : Option (Action σ α)

/-- Translation of data/step_result.py: the result of one step
execution. The details dict is modelled as an association list; the
engine never populates it. -/
structure StepResult (σ α : Type) where
  step : Step σ α
  success : Bool
  message : String
  exception : Option Exc
  details : List (String × String)

variable {σ α : Type}

/-- Translation of StepResult.__bool__: truthiness equals success. -/
def StepResult.toBool (r : StepResult σ α) : Bool := r.success

/-- Observable call events emitted by the engine: execution of a step
function, invocation of the rollback procedure with its argument, and
invocation of one compensating action. -/
inductive Event (σ α : Type) where
  | funcCall (step : Step σ α)
  | rollbackCall (executed_steps : List (StepResult σ α))
  | compCall (step : Step σ α)

/-- Output of ProcessManager._execute_step. -/
structure ExecOut (σ α : Type) where
  result : StepResult σ α
  world : σ
  trace : List (Event σ α)

/-- Output of the step loop inside ProcessManager.run. -/
structure LoopOut (σ α : Type) where
  retval : Bool
  results : List (StepResult σ α)
  world : σ
  trace : List (Event σ α)

/-- Mutable state of a ProcessManager object: the stored result history
(the _results attribute). -/
structure PMState (σ α : Type) where
  _results : List (StepResult σ α)

/-- Outcome of one ProcessManager.run call: return value, object state
after the call, external world after the call, and the call trace. -/
structure RunOutcome (σ α : Type) where
  retval : Bool
  state : PMState σ α
  world : σ
  trace : List (Event σ α)

/-- The overridable pieces of a ProcessManager specialization: the
ordered step list (_get_steps, deterministic and side-effect free) and
the input validator (_validate_input, which may itself raise: it is not
guarded by any handler in run). -/
structure ProcessManager (σ α : Type) where
  get_steps : List (Step σ α)
  validate_input : α → Except Exc (StepResult σ α)

/-- Translation of the dummy validation step built by the default
ProcessManager._validate_input. -/
def validation_step (σ α : Type) : Step σ α :=
  ⟨fun _ w => (Except.ok true, w), "Input validation", none⟩

/-- Translation of the default ProcessManager._validate_input: always
succeeds with a generic result around the dummy validation step. -/
def default_validate_input (σ α : Type) : α → Except Exc (StepResult σ α) :=
  fun _ => Except.ok ⟨validation_step σ α, true, "Input validation passed", none, []⟩

/-- Translation of ProcessManager._execute_step: call step.func with
the run argument; a returned value gives a result with success equal to
the coerced value, a raised error is captured into the result
(success false, exception recorded) and not re-raised. Message texts
follow the source with the quoting punctuation dropped. -/
def execute_step (step : Step σ α) (a : α) (w : σ) : ExecOut σ α :=
  match step.func a w with
  | (Except.ok success, w2) =>
      ⟨⟨step, success,
          "Step " ++ step.description ++ (if success then " succeeded" else " failed"),
          none, []⟩,
        w2, [Event.funcCall step]⟩
  | (Except.error e, w2) =>
      ⟨⟨step, false, "Error in step " ++ step.description ++ ": " ++ e, some e, []⟩,
        w2, [Event.funcCall step]⟩

/-- Loop body of ProcessManager._rollback: walk the already-reversed
result list; a step without rollback_func is skipped; for a step with
one, the compensating action is invoked and its outcome (returned
failure or raised error) is only reported, never aborts the loop. -/
def rollback_loop (a : α) : List (StepResult σ α) → σ → σ × List (Event σ α)
  | [], w => (w, [])
  | r :: rest, w =>
    match r.step.rollback_func with
    | none => rollback_loop a rest w
    | some comp =>
      -- the success flag and any raised error are only printed
      match comp a w with
      | (_, w2) =>
        match rollback_loop a rest w2 with
        | (w3, evs) => (w3, Event.compCall r.step :: evs)

/-- Translation of ProcessManager._rollback: iterate the executed-step
results in reverse order, invoking each available compensating
action. -/
def rollback (executed_steps : List (StepResult σ α)) (a : α) (w : σ) :
    σ × List (Event σ α) :=
  rollback_loop a executed_steps.reverse w

/-- Step loop of ProcessManager.run: execute each step in order,
appending every result to the history and the successful ones to the
successful-steps list; on the first failure, invoke _rollback over the
successful results when at least one of them has a rollback_func, and
return False; if all steps succeed return True. -/
def runSteps (a : α) :
    List (Step σ α) → σ → List (StepResult σ α) → List (StepResult σ α) →
      LoopOut σ α
  | [], w, results, _ => ⟨true, results, w, []⟩
  | step :: rest, w, results, successful =>
    match execute_step step a w with
    | ⟨result, w2, evs⟩ =>
      if result.success then
        match runSteps a rest w2 (results ++ [result]) (successful ++ [result]) with
        | ⟨b, rs, w3, evs2⟩ => ⟨b, rs, w3, evs ++ evs2⟩
      else
        if successful.any (fun s => s.step.rollback_func.isSome) then
          match rollback successful a w2 with
          | (w3, rbevs) =>
            ⟨false, results ++ [result], w3, evs ++ Event.rollbackCall successful :: rbevs⟩
        else
          ⟨false, results ++ [result], w2, evs⟩

/-- Translation of ProcessManager.run: reset the result history (the
incoming object state is discarded), validate the input (a raised error
here propagates), record the validation result, short-circuit on
validation failure, otherwise fetch the steps and run the step loop. -/
def run (pm : ProcessManager σ α) (st : PMState σ α) (a : α) (w : σ) :
    Except Exc (RunOutcome σ α) :=
  -- self._results = [] : st is discarded
  match pm.validate_input a with
  | Except.error e => Except.error e
  | Except.ok validation_result =>
    if validation_result.success then
      match runSteps a pm.get_steps w [validation_result] [] with
      | ⟨b, rs, w2, tr⟩ => Except.ok ⟨b, ⟨rs⟩, w2, tr⟩
    else
      Except.ok ⟨false, ⟨[validation_result]⟩, w, []⟩

/-- Translation of the ProcessManager.results property: a method call
that returns the stored history and leaves the object state as is. -/
def results (st : PMState σ α) : List (StepResult σ α) × PMState σ α :=
  (st._results, st)

/-- Arguments of the rollbackCall events occurring in a trace, in
order: one entry per invocation of _rollback. -/
def rollbackCallArgs : List (Event σ α) → List (List (StepResult σ α))
  | [] => []
  | Event.rollbackCall rs :: es => rs :: rollbackCallArgs es
  | Event.funcCall _ :: es => rollbackCallArgs es
  | Event.compCall _ :: es => rollbackCallArgs es

/-- Steps whose compensating action is invoked in a trace, in
invocation order. -/
def compCallSteps : List (Event σ α) → List (Step σ α)
  | [] => []
  | Event.compCall s :: es => s :: compCallSteps es
  | Event.funcCall _ :: es => compCallSteps es
  | Event.rollbackCall _ :: es => compCallSteps es

/-- The compensating-action call trace that _rollback produces for a
given executed-step list. -/
def compTraceOf (rs : List (StepResult σ α)) : List (Event σ α) :=
  (rs.reverse.filter fun r => r.step.rollback_func.isSome).map
    fun r => Event.compCall r.step

/-! VersionManager (tools/version_manager.py). The regex machinery the
source uses is modelled directly on character lists. The digit class of
the patterns is modelled by Char.isDigit (the version strings of
interest are ASCII). -/

/-- Greedy match of one-or-more digits: the consumed digit span and the
remainder, as a regex engine matches a maximal run for a digit-plus
atom followed by a non-digit atom. -/
def spanDigits : List Char → List Char × List Char
  | [] => ([], [])
  | c :: rest =>
    if c.isDigit then
      match spanDigits rest with
      | (d, r) => (c :: d, r)
    else ([], c :: rest)

/-- Python dollar anchor semantics: matches at the end of the string or
just before a newline at the end of the string. -/
def pyDollar : List Char → Bool
  | [] => true
  | ['\n'] => true
  | _ => false

/-- Translation of VERSION_PATTERN.match: the anchored pattern
caret digit-plus dot digit-plus dot digit-plus dollar, with re.match
semantics (anchored at the start, dollar per pyDollar). -/
def versionPatternMatch (l : List Char) : Bool :=
  match spanDigits l with
  | ([], _) => false
  | (_ :: _, r1) =>
    match r1 with
    | '.' :: r2 =>
      match spanDigits r2 with
      | ([], _) => false
      | (_ :: _, r3) =>
        match r3 with
        | '.' :: r4 =>
          match spanDigits r4 with
          | ([], _) => false
          | (_ :: _, r5) => pyDollar r5
        | _ => false
    | _ => false

/-- A nonempty all-digit character list. -/
def IsDigitStr (l : List Char) : Prop := l ≠ [] ∧ ∀ c ∈ l, c.isDigit = true

/-- Modelled from the spec: a string of the form MAJOR.MINOR.PATCH with
numeric components, the shape the spec says validation accepts. -/
def IsVersionShape (l : List Char) : Prop :=
  ∃ a b c, IsDigitStr a ∧ IsDigitStr b ∧ IsDigitStr c ∧
    l = a ++ '.' :: (b ++ '.' :: c)

/-- The external world a VersionManager touches: the manifest file
collaborator. Reading it yields its text or raises. -/
structure VMWorld where
  pyprojectText : Except Exc String

/-- Translation of the dummy step built inside
VersionManager._validate_input. -/
def vm_validation_step : Step VMWorld String :=
  ⟨fun v w => (Except.ok (versionPatternMatch v.data), w),
    "Version format validation", none⟩

/-- Translation of VersionManager._validate_input: succeed exactly when
VERSION_PATTERN matches the version argument. -/
def vm_validate_input (version : String) : Except Exc (StepResult VMWorld String) :=
  Except.ok
    ⟨vm_validation_step, versionPatternMatch version.data,
      (if versionPatternMatch version.data then "Version " ++ version ++ " is valid"
       else "Invalid version format: " ++ version ++
         ". Expected format: \x7bMAJOR\x7d.\x7bMINOR\x7d.\x7bPATCH\x7d"),
      none, []⟩

/-- The literal text before the quoted version in
PYPROJECT_VERSION_PATTERN. -/
def pyprojLit : List Char := "version = ".data ++ ['\x22']

/-- Match a literal character sequence at the head of a list, returning
the remainder. -/
def stripLit : List Char → List Char → Option (List Char)
  | [], l => some l
  | _ :: _, [] => none
  | p :: ps, c :: cs => if p = c then stripLit ps cs else none

/-- Match of PYPROJECT_VERSION_PATTERN at the head of the list: the
literal prefix, then three digit runs separated by dots, then the
closing quote. Returns the captured version text between the quotes and
the remainder after the match. -/
def matchVersionAssign (l : List Char) : Option (List Char × List Char) :=
  match stripLit pyprojLit l with
  | none => none
  | some r1 =>
    match spanDigits r1 with
    | ([], _) => none
    | (d1, r2) =>
      match r2 with
      | '.' :: r3 =>
        match spanDigits r3 with
        | ([], _) => none
        | (d2, r4) =>
          match r4 with
          | '.' :: r5 =>
            match spanDigits r5 with
            | ([], _) => none
            | (d3, r6) =>
              match r6 with
              | '\x22' :: r7 => some (d1 ++ '.' :: (d2 ++ '.' :: d3), r7)
              | _ => none
          | _ => none
      | _ => none

/-- Translation of PYPROJECT_VERSION_PATTERN.search: scan positions
left to right and return the version text captured by the first
match. -/
def searchVersionAssign : List Char → Option (List Char)
  | [] => none
  | c :: rest =>
    match matchVersionAssign (c :: rest) with
    | some p => some p.1
    | none => searchVersionAssign rest

theorem stripLit_length :
    ∀ (p l r : List Char), stripLit p l = some r → r.length + p.length = l.length := by
  intro p
  induction p with
  | nil =>
    intro l r h
    simp only [stripLit, Option.some.injEq] at h
    simp [h]
  | cons c cs ih =>
    intro l r h
    cases l with
    | nil => simp [stripLit] at h
    | cons x xs =>
      simp only [stripLit] at h
      by_cases hc : c = x
      · simp only [hc, if_pos rfl] at h
        have := ih xs r h
        simp [List.length]
        omega
      · simp [hc] at h

theorem spanDigits_snd_length :
    ∀ l : List Char, (spanDigits l).2.length ≤ l.length := by
  intro l
  induction l with
  | nil => simp [spanDigits]
  | cons c rest ih =>
    simp only [spanDigits]
    by_cases hc : c.isDigit
    · simp only [hc, if_pos]
      cases h : spanDigits rest with
      | mk d r =>
        simp only [h] at ih
        simp
        omega
    · simp [hc]

theorem matchVersionAssign_length (l : List Char) (p : List Char × List Char)
    (h : matchVersionAssign l = some p) : p.2.length < l.length := by
  simp only [matchVersionAssign] at h
  cases hs : stripLit pyprojLit l with
  | none => simp [hs] at h
  | some r1 =>
    have h1 : r1.length + pyprojLit.length = l.length := stripLit_length _ _ _ hs
    have hlit : pyprojLit.length = 11 := by decide
    simp only [hs] at h
    cases hsp1 : spanDigits r1 with
    | mk d1 r2 =>
      have hr2 : r2.length ≤ r1.length := by
        have := spanDigits_snd_length r1
        simp [hsp1] at this
        exact this
      simp only [hsp1] at h
      cases d1 with
      | nil => simp at h
      | cons a as =>
        cases r2 with
        | nil => simp at h
        | cons x xs =>
          by_cases hx : x = '.'
          · subst hx
            simp only [] at h
            cases hsp2 : spanDigits xs with
            | mk d2 r4 =>
              have hr4 : r4.length ≤ xs.length := by
                have := spanDigits_snd_length xs
                simp [hsp2] at this
                exact this
              simp only [hsp2] at h
              cases d2 with
              | nil => simp at h
              | cons b bs =>
                cases r4 with
                | nil => simp at h
                | cons y ys =>
                  by_cases hy : y = '.'
                  · subst hy
                    simp only [] at h
                    cases hsp3 : spanDigits ys with
                    | mk d3 r6 =>
                      have hr6 : r6.length ≤ ys.length := by
                        have := spanDigits_snd_length ys
                        simp [hsp3] at this
                        exact this
                      simp only [hsp3] at h
                      cases d3 with
                      | nil => simp at h
                      | cons z zs =>
                        cases r6 with
                        | nil => simp at h
                        | cons q qs =>
                          by_cases hq : q = '\x22'
                          · subst hq
                            simp only [Option.some.injEq] at h
                            have : p.2 = qs := by rw [← h]
                            rw [this]
                            simp only [List.length_cons] at hr2 hr4 hr6 ⊢
                            omega
                          · simp [hq] at h
                  · simp [hy] at h
          · simp [hx] at h

/-- Translation of re.sub with PYPROJECT_VERSION_PATTERN: replace every
non-overlapping match, scanning left to right, by the replacement
text. -/
def subVersionAll (repl : List Char) (l : List Char) : List Char :=
  match h : matchVersionAssign l with
  | some p => repl ++ subVersionAll repl p.2
  | none =>
    match l with
    | [] => []
    | c :: rest => c :: subVersionAll repl rest
termination_by l.length
decreasing_by
  · exact matchVersionAssign_length l p h
  · simp

/-- Translation of the original-version capture in
VersionManager.__init__: on a read that raises, the except clause
passes and nothing is captured; otherwise the version text of the first
PYPROJECT_VERSION_PATTERN match is stored (match.group(0) split at the
quotes yields exactly the captured digits-and-dots text). -/
def captureOriginalVersion (readResult : Except Exc String) : Option String :=
  match readResult with
  | Except.error _ => none
  | Except.ok content =>
    match searchVersionAssign content.data with
    | some v => some (String.mk v)
    | none => none

/-- Translation of VersionManager._rollback_version_update: with no
truthy original version stored, report and return False; otherwise
read the manifest, substitute the original version back and write
(a raised read error is caught and reported as False). -/
def rollback_version_update (orig : Option String) (version : String)
    (w : VMWorld) : Except Exc Bool × VMWorld :=
  match orig with
  | none => (Except.ok false, w)
  | some ov =>
    if ov = "" then (Except.ok false, w)
    else
      match w.pyprojectText with
      | Except.error _ => (Except.ok false, w)
      | Except.ok content =>
        (Except.ok true,
          ⟨Except.ok (String.mk
            (subVersionAll (pyprojLit ++ ov.data ++ ['\x22']) content.data))⟩)

/-- Translation of ErrorManager (tools/error_manager.py): two steps
whose functions raise NotImplementedError and have no rollback, and a
validator that raises NotImplementedError. -/
def errorManagerPM : ProcessManager Unit Unit :=
  ⟨[⟨fun _ w => (Except.error "NotImplementedError", w), "Running sourcery", none⟩,
    ⟨fun _ w => (Except.error "NotImplementedError", w), "Running pytest", none⟩],
    fun _ => Except.error "NotImplementedError"⟩

/-! Helper lemmas about the engine. -/

theorem execute_step_result_step (step : Step σ α) (a : α) (w : σ) :
    (execute_step step a w).result.step = step := by
  cases h : step.func a w with
  | mk o w2 => cases o <;> simp [execute_step, h]

theorem execute_step_trace (step : Step σ α) (a : α) (w : σ) :
    (execute_step step a w).trace = [Event.funcCall step] := by
  cases h : step.func a w with
  | mk o w2 => cases o <;> simp [execute_step, h]

theorem rollback_loop_trace (a : α) :
    ∀ (l : List (StepResult σ α)) (w : σ),
      (rollback_loop a l w).2 =
        (l.filter fun r => r.step.rollback_func.isSome).map
          fun r => Event.compCall r.step := by
  intro l
  induction l with
  | nil => intro w; simp [rollback_loop]
  | cons r rest ih =>
    intro w
    simp only [rollback_loop]
    cases hc : r.step.rollback_func with
    | none => simp [hc, List.filter_cons, ih w]
    | some comp =>
      cases hcw : comp a w with
      | mk o w2 =>
        cases hrl : rollback_loop a rest w2 with
        | mk w3 evs =>
          have h2 := ih w2
          rw [hrl] at h2
          simp only [hc, hcw, hrl, List.filter_cons]
          simp
          simpa using h2

theorem rollback_trace_eq (rs : List (StepResult σ α)) (a : α) (w : σ) :
    (rollback rs a w).2 = compTraceOf rs := by
  simp [rollback, compTraceOf, rollback_loop_trace]

theorem rollbackCallArgs_append (t1 t2 : List (Event σ α)) :
    rollbackCallArgs (t1 ++ t2) = rollbackCallArgs t1 ++ rollbackCallArgs t2 := by
  induction t1 with
  | nil => simp [rollbackCallArgs]
  | cons e es ih => cases e <;> simp [rollbackCallArgs, ih]

theorem compCallSteps_append (t1 t2 : List (Event σ α)) :
    compCallSteps (t1 ++ t2) = compCallSteps t1 ++ compCallSteps t2 := by
  induction t1 with
  | nil => simp [compCallSteps]
  | cons e es ih => cases e <;> simp [compCallSteps, ih]

theorem rollbackCallArgs_funcMap (rs : List (StepResult σ α)) :
    rollbackCallArgs (rs.map fun r => Event.funcCall r.step) = [] := by
  induction rs with
  | nil => simp [rollbackCallArgs]
  | cons r rest ih => simp [rollbackCallArgs, ih]

theorem rollbackCallArgs_compMap (rs : List (StepResult σ α)) :
    rollbackCallArgs (rs.map fun r => Event.compCall r.step) = [] := by
  induction rs with
  | nil => simp [rollbackCallArgs]
  | cons r rest ih => simp [rollbackCallArgs, ih]

theorem compCallSteps_funcMap (rs : List (StepResult σ α)) :
    compCallSteps (rs.map fun r => Event.funcCall r.step) = [] := by
  induction rs with
  | nil => simp [compCallSteps]
  | cons r rest ih => simp [compCallSteps, ih]

theorem compCallSteps_compMap (rs : List (StepResult σ α)) :
    compCallSteps (rs.map fun r => Event.compCall r.step) =
      rs.map fun r => r.step := by
  induction rs with
  | nil => simp [compCallSteps]
  | cons r rest ih => simp [compCallSteps, ih]

theorem runSteps_acc (a : α) :
    ∀ (steps : List (Step σ α)) (w : σ) (acc successful : List (StepResult σ α)),
      ∃ news, (runSteps a steps w acc successful).results = acc ++ news := by
  intro steps
  induction steps with
  | nil => intro w acc s; exact ⟨[], by simp [runSteps]⟩
  | cons step rest ih =>
    intro w acc s
    cases he : execute_step step a w with
    | mk result w2 evs =>
      by_cases hs : result.success = true
      · obtain ⟨news, hn⟩ := ih w2 (acc ++ [result]) (s ++ [result])
        cases hr : runSteps a rest w2 (acc ++ [result]) (s ++ [result]) with
        | mk b rs w3 evs2 =>
          refine ⟨result :: news, ?_⟩
          rw [hr] at hn
          simp only [LoopOut.results] at hn
          simp [runSteps, he, hs, hr, hn]
      · by_cases hany : s.any (fun x => x.step.rollback_func.isSome) = true
        · cases hrb : rollback s a w2 with
          | mk w3 rbevs =>
            exact ⟨[result], by simp [runSteps, he, hs, hany, hrb]⟩
        · exact ⟨[result], by simp [runSteps, he, hs, hany]⟩

theorem runSteps_shape (a : α) :
    ∀ (steps : List (Step σ α)) (w : σ) (acc successful : List (StepResult σ α)),
      ∃ news,
        (runSteps a steps w acc successful).results = acc ++ news ∧
        news.map (fun r => r.step) = steps.take news.length ∧
        ((runSteps a steps w acc successful).retval = true →
          news.length = steps.length ∧ ∀ r ∈ news, r.success = true) ∧
        ((runSteps a steps w acc successful).retval = false →
          ∃ pre rk, news = pre ++ [rk] ∧ (∀ r ∈ pre, r.success = true) ∧
            rk.success = false) := by
  intro steps
  induction steps with
  | nil =>
    intro w acc s
    refine ⟨[], by simp [runSteps], by simp, fun _ => by simp, fun h => ?_⟩
    simp [runSteps] at h
  | cons step rest ih =>
    intro w acc s
    cases he : execute_step step a w with
    | mk result w2 evs =>
      have hstep : result.step = step := by
        have := execute_step_result_step step a w
        rw [he] at this
        exact this
      by_cases hs : result.success = true
      · obtain ⟨news2, hres2, hmap2, htrue2, hfalse2⟩ :=
          ih w2 (acc ++ [result]) (s ++ [result])
        cases hr : runSteps a rest w2 (acc ++ [result]) (s ++ [result]) with
        | mk b rs w3 evs2 =>
          have hrun : runSteps a (step :: rest) w acc s = ⟨b, rs, w3, evs ++ evs2⟩ := by
            simp [runSteps, he, hs, hr]
          rw [hr] at hres2 htrue2 hfalse2
          simp only [LoopOut.results, LoopOut.retval] at hres2 htrue2 hfalse2
          refine ⟨result :: news2, ?_, ?_, ?_, ?_⟩
          · rw [hrun]
            simp only [LoopOut.results]
            rw [hres2]
            simp
          · simp [List.take, hstep, hmap2]
          · intro hb
            rw [hrun] at hb
            simp only [LoopOut.retval] at hb
            obtain ⟨hl, hall⟩ := htrue2 hb
            refine ⟨by simp [hl], ?_⟩
            intro r hrmem
            rcases List.mem_cons.mp hrmem with h1 | h2
            · rw [h1]; exact hs
            · exact hall r h2
          · intro hb
            rw [hrun] at hb
            simp only [LoopOut.retval] at hb
            obtain ⟨pre2, rk, hnews2, hpre2, hrk⟩ := hfalse2 hb
            refine ⟨result :: pre2, rk, by simp [hnews2], ?_, hrk⟩
            intro r hrmem
            rcases List.mem_cons.mp hrmem with h1 | h2
            · rw [h1]; exact hs
            · exact hpre2 r h2
      · have hsf : result.success = false := by
          cases hsv : result.success
          · rfl
          · exact absurd hsv hs
        have hout : (runSteps a (step :: rest) w acc s).results = acc ++ [result] ∧
            (runSteps a (step :: rest) w acc s).retval = false := by
          by_cases hany : s.any (fun x => x.step.rollback_func.isSome) = true
          · cases hrb : rollback s a w2 with
            | mk w3 rbevs => simp [runSteps, he, hs, hany, hrb]
          · simp [runSteps, he, hs, hany]
        refine ⟨[result], hout.1, by simp [hstep], ?_, ?_⟩
        · intro hb
          rw [hout.2] at hb
          exact absurd hb (by simp)
        · intro _
          exact ⟨[], result, by simp, by simp, hsf⟩

theorem runSteps_fail_char (a : α) :
    ∀ (steps : List (Step σ α)) (w : σ)
      (acc successful pre : List (StepResult σ α)) (rk : StepResult σ α),
      (runSteps a steps w acc successful).results = acc ++ (pre ++ [rk]) →
      (∀ r ∈ pre, r.success = true) → rk.success = false →
      (runSteps a steps w acc successful).retval = false ∧
      (runSteps a steps w acc successful).trace =
        ((pre ++ [rk]).map fun r => Event.funcCall r.step) ++
        (if (successful ++ pre).any (fun s => s.step.rollback_func.isSome) then
          Event.rollbackCall (successful ++ pre) :: compTraceOf (successful ++ pre)
        else []) := by
  intro steps
  induction steps with
  | nil =>
    intro w acc successful pre rk hres hpre hrk
    exfalso
    simp only [runSteps, LoopOut.results] at hres
    have h2 : acc ++ ([] : List (StepResult σ α)) = acc ++ (pre ++ [rk]) := by
      simpa using hres
    have := List.append_cancel_left h2
    simp at this
  | cons step rest ih =>
    intro w acc successful pre rk hres hpre hrk
    cases he : execute_step step a w with
    | mk result w2 evs =>
      have hstep : result.step = step := by
        have := execute_step_result_step step a w
        rw [he] at this
        exact this
      have hevs : evs = [Event.funcCall step] := by
        have := execute_step_trace step a w
        rw [he] at this
        exact this
      by_cases hs : result.success = true
      · cases hr : runSteps a rest w2 (acc ++ [result]) (successful ++ [result]) with
        | mk b rs w3 evs2 =>
          have hrun : runSteps a (step :: rest) w acc successful = ⟨b, rs, w3, evs ++ evs2⟩ := by
            simp [runSteps, he, hs, hr]
          rw [hrun] at hres
          simp only [LoopOut.results] at hres
          obtain ⟨news, hnews⟩ := runSteps_acc a rest w2 (acc ++ [result]) (successful ++ [result])
          rw [hr] at hnews
          simp only [LoopOut.results] at hnews
          have hsplit0 : acc ++ ([result] ++ news) = acc ++ (pre ++ [rk]) := by
            rw [← List.append_assoc, ← hnews, hres]
          have hsplit : [result] ++ news = pre ++ [rk] :=
            List.append_cancel_left hsplit0
          cases pre with
          | nil =>
            exfalso
            simp at hsplit
            rw [hsplit.1] at hs
            rw [hs] at hrk
            simp at hrk
          | cons p0 pre2 =>
            simp only [List.cons_append, List.singleton_append, List.nil_append,
              List.cons.injEq] at hsplit
            obtain ⟨hp0, hnews2⟩ := hsplit
            subst hp0
            have hres2 : (runSteps a rest w2 (acc ++ [result]) (successful ++ [result])).results =
                (acc ++ [result]) ++ (pre2 ++ [rk]) := by
              rw [hr]
              simp only [LoopOut.results]
              rw [hnews, hnews2]
            have hpre2 : ∀ r ∈ pre2, r.success = true := by
              intro r hrm
              exact hpre r (List.mem_cons_of_mem result hrm)
            obtain ⟨hret, htr⟩ := ih w2 (acc ++ [result]) (successful ++ [result]) pre2 rk hres2 hpre2 hrk
            rw [hr] at hret htr
            simp only [LoopOut.retval, LoopOut.trace] at hret htr
            constructor
            · rw [hrun]
              simpa using hret
            · rw [hrun]
              simp only [LoopOut.trace]
              rw [htr, hevs]
              have happ : successful ++ [result] ++ pre2 = successful ++ (result :: pre2) := by
                simp
              rw [happ]
              simp [hstep]
      · have hsf : result.success = false := by
          cases hsv : result.success
          · rfl
          · exact absurd hsv hs
        by_cases hany : successful.any (fun x => x.step.rollback_func.isSome) = true
        · cases hrb : rollback successful a w2 with
          | mk w3 rbevs =>
            have hrun : runSteps a (step :: rest) w acc successful =
                ⟨false, acc ++ [result], w3, evs ++ Event.rollbackCall successful :: rbevs⟩ := by
              simp [runSteps, he, hs, hany, hrb]
            rw [hrun] at hres
            simp only [LoopOut.results] at hres
            have hsplit0 : acc ++ [result] = acc ++ (pre ++ [rk]) := by
              simpa using hres
            have hsplit : [result] = pre ++ [rk] :=
              List.append_cancel_left hsplit0
            cases pre with
            | cons p0 pre2 =>
              exfalso
              have := congrArg List.length hsplit
              simp at this
            | nil =>
              simp at hsplit
              subst hsplit
              have hrbevs : rbevs = compTraceOf successful := by
                have := rollback_trace_eq successful a w2
                rw [hrb] at this
                exact this
              rw [hrun]
              refine ⟨rfl, ?_⟩
              simp only [LoopOut.trace]
              rw [hevs, hrbevs]
              simp [hany, hstep]
        · have hrun : runSteps a (step :: rest) w acc successful =
              ⟨false, acc ++ [result], w2, evs⟩ := by
            simp [runSteps, he, hs, hany]
          rw [hrun] at hres
          simp only [LoopOut.results] at hres
          have hsplit0 : acc ++ [result] = acc ++ (pre ++ [rk]) := by
            simpa using hres
          have hsplit : [result] = pre ++ [rk] :=
            List.append_cancel_left hsplit0
          cases pre with
          | cons p0 pre2 =>
            exfalso
            have := congrArg List.length hsplit
            simp at this
          | nil =>
            simp at hsplit
            subst hsplit
            rw [hrun]
            refine ⟨rfl, ?_⟩
            simp only [LoopOut.trace]
            rw [hevs]
            simp [hstep, hany]

theorem run_ok_out (pm : ProcessManager σ α) (st : PMState σ α) (a : α) (w : σ)
    (v : StepResult σ α) (hv : pm.validate_input a = Except.ok v)
    (hvs : v.success = true) :
    ∃ lo : LoopOut σ α, runSteps a pm.get_steps w [v] [] = lo ∧
      run pm st a w = Except.ok ⟨lo.retval, ⟨lo.results⟩, lo.world, lo.trace⟩ := by
  cases hr : runSteps a pm.get_steps w [v] [] with
  | mk b rs w2 tr => exact ⟨⟨b, rs, w2, tr⟩, rfl, by simp [run, hv, hvs, hr]⟩

theorem run_validate_failed (pm : ProcessManager σ α) (st : PMState σ α) (a : α)
    (w : σ) (v : StepResult σ α) (hv : pm.validate_input a = Except.ok v)
    (hvs : v.success = false) :
    run pm st a w = Except.ok ⟨false, ⟨[v]⟩, w, []⟩ := by
  simp [run, hv, hvs]

theorem run_error_iff (pm : ProcessManager σ α) (st : PMState σ α) (a : α) (w : σ)
    (e : Exc) :
    run pm st a w = Except.error e ↔ pm.validate_input a = Except.error e := by
  constructor
  · intro h
    cases hv : pm.validate_input a with
    | error e2 =>
      simp only [run, hv, Except.error.injEq] at h
      rw [h]
    | ok v =>
      exfalso
      by_cases hvs : v.success = true
      · obtain ⟨lo, _, hrun⟩ := run_ok_out pm st a w v hv hvs
        rw [hrun] at h
        exact Except.noConfusion h
      · have hvf : v.success = false := by
          cases hb : v.success
          · rfl
          · exact absurd hb hvs
        have := run_validate_failed pm st a w v hv hvf
        rw [this] at h
        exact Except.noConfusion h
  · intro h
    simp [run, h]

/-! Helper lemmas about the version pattern matcher. -/

theorem spanDigits_eq_of (d r : List Char) (hd : ∀ c ∈ d, c.isDigit = true)
    (hr : r = [] ∨ ∃ c cs, r = c :: cs ∧ c.isDigit = false) :
    spanDigits (d ++ r) = (d, r) := by
  induction d with
  | nil =>
    simp only [List.nil_append]
    rcases hr with h | ⟨c, cs, hcs, hc⟩
    · subst h; simp [spanDigits]
    · subst hcs; simp [spanDigits, hc]
  | cons x xs ih =>
    have hx : x.isDigit = true := hd x (by simp)
    have ih2 := ih fun c hc => hd c (by simp [hc])
    simp [spanDigits, hx, ih2]

theorem spanDigits_decomp (l : List Char) :
    l = (spanDigits l).1 ++ (spanDigits l).2 ∧
    (∀ c ∈ (spanDigits l).1, c.isDigit = true) ∧
    ((spanDigits l).2 = [] ∨
      ∃ c cs, (spanDigits l).2 = c :: cs ∧ c.isDigit = false) := by
  induction l with
  | nil => exact ⟨by simp [spanDigits], by simp [spanDigits], Or.inl (by simp [spanDigits])⟩
  | cons c rest ih =>
    by_cases hc : c.isDigit = true
    · cases hsp : spanDigits rest with
      | mk d r =>
        have hspc : spanDigits (c :: rest) = (c :: d, r) := by
          simp [spanDigits, hc, hsp]
        rw [hsp] at ih
        simp only at ih
        obtain ⟨h1, h2, h3⟩ := ih
        rw [hspc]
        refine ⟨?_, ?_, h3⟩
        · simp only [List.cons_append]
          rw [← h1]
        · intro x hx
          rcases List.mem_cons.mp hx with h | h
          · rw [h]; exact hc
          · exact h2 x h
    · have hcf : c.isDigit = false := by
        cases hb : c.isDigit
        · rfl
        · exact absurd hb hc
      have hspc : spanDigits (c :: rest) = ([], c :: rest) := by
        simp [spanDigits, hcf]
      rw [hspc]
      exact ⟨by simp, by simp, Or.inr ⟨c, rest, rfl, hcf⟩⟩

theorem pyDollar_eq (r : List Char) (h : pyDollar r = true) :
    r = [] ∨ r = ['\n'] := by
  unfold pyDollar at h
  split at h
  · left; rfl
  · right; rfl
  · exact absurd h (by simp)

theorem versionPatternMatch_shape (a b c tail : List Char)
    (ha : IsDigitStr a) (hb : IsDigitStr b) (hc : IsDigitStr c)
    (htail : tail = [] ∨ tail = ['\n']) :
    versionPatternMatch (a ++ '.' :: (b ++ '.' :: (c ++ tail))) = true := by
  have hsp1 : spanDigits (a ++ '.' :: (b ++ '.' :: (c ++ tail))) =
      (a, '.' :: (b ++ '.' :: (c ++ tail))) :=
    spanDigits_eq_of a _ ha.2 (Or.inr ⟨'.', _, rfl, by decide⟩)
  have hsp2 : spanDigits (b ++ '.' :: (c ++ tail)) = (b, '.' :: (c ++ tail)) :=
    spanDigits_eq_of b _ hb.2 (Or.inr ⟨'.', _, rfl, by decide⟩)
  have hsp3 : spanDigits (c ++ tail) = (c, tail) := by
    refine spanDigits_eq_of c tail hc.2 ?_
    rcases htail with h | h
    · exact Or.inl h
    · exact Or.inr ⟨'\n', [], h, by decide⟩
  obtain ⟨a0, a2, rfl⟩ : ∃ x xs, a = x :: xs := by
    cases a with
    | nil => exact absurd rfl ha.1
    | cons x xs => exact ⟨x, xs, rfl⟩
  obtain ⟨b0, b2, rfl⟩ : ∃ x xs, b = x :: xs := by
    cases b with
    | nil => exact absurd rfl hb.1
    | cons x xs => exact ⟨x, xs, rfl⟩
  obtain ⟨c0, c2, rfl⟩ : ∃ x xs, c = x :: xs := by
    cases c with
    | nil => exact absurd rfl hc.1
    | cons x xs => exact ⟨x, xs, rfl⟩
  rcases htail with h | h <;> subst h <;>
    simp only [versionPatternMatch, hsp1, hsp2, hsp3, pyDollar]

theorem versionPatternMatch_iff (l : List Char) :
    versionPatternMatch l = true ↔
      (IsVersionShape l ∨ ∃ l2, l = l2 ++ ['\n'] ∧ IsVersionShape l2) := by
  constructor
  · intro h
    simp only [versionPatternMatch] at h
    split at h
    · exact absurd h (by simp)
    · rename_i d1h d1t r1 heq1
      split at h
      · rename_i r2
        split at h
        · exact absurd h (by simp)
        · rename_i d2h d2t r3 heq2
          split at h
          · rename_i r4
            split at h
            · exact absurd h (by simp)
            · rename_i d3h d3t r5 heq3
              -- reconstruct the decompositions
              obtain ⟨hl1, hd1, _⟩ := spanDigits_decomp l
              rw [heq1] at hl1 hd1
              simp only at hl1 hd1
              obtain ⟨hl2, hd2, _⟩ := spanDigits_decomp r2
              rw [heq2] at hl2 hd2
              simp only at hl2 hd2
              obtain ⟨hl3, hd3, _⟩ := spanDigits_decomp r4
              rw [heq3] at hl3 hd3
              simp only at hl3 hd3
              rcases pyDollar_eq r5 h with h5 | h5 <;> subst h5
              · left
                refine ⟨d1h :: d1t, d2h :: d2t, d3h :: d3t, ⟨by simp, hd1⟩,
                  ⟨by simp, hd2⟩, ⟨by simp, hd3⟩, ?_⟩
                rw [hl1, hl2, hl3]
                simp
              · right
                refine ⟨(d1h :: d1t) ++ '.' :: ((d2h :: d2t) ++ '.' :: (d3h :: d3t)), ?_,
                  d1h :: d1t, d2h :: d2t, d3h :: d3t, ⟨by simp, hd1⟩,
                  ⟨by simp, hd2⟩, ⟨by simp, hd3⟩, rfl⟩
                rw [hl1, hl2, hl3]
                simp
          · exact absurd h (by simp)
      · exact absurd h (by simp)
  · rintro (⟨a, b, c, ha, hb, hc, rfl⟩ | ⟨l2, rfl, a, b, c, ha, hb, hc, rfl⟩)
    · have := versionPatternMatch_shape a b c [] ha hb hc (Or.inl rfl)
      simpa using this
    · have := versionPatternMatch_shape a b c ['\n'] ha hb hc (Or.inr rfl)
      have harr : (a ++ '.' :: (b ++ '.' :: c)) ++ ['\n'] =
          a ++ '.' :: (b ++ '.' :: (c ++ ['\n'])) := by simp
      rw [harr]
      exact this

/-- Characterization of a run whose recorded step results are a block
of successes followed by one failure: the run failed, and its trace is
the executed-step calls followed by the conditional rollback block. -/
theorem run_fail_decomp (pm : ProcessManager σ α) (st : PMState σ α) (a : α)
    (w : σ) (out : RunOutcome σ α) (v : StepResult σ α)
    (pre : List (StepResult σ α)) (rk : StepResult σ α)
    (hrun : run pm st a w = Except.ok out)
    (hres : out.state._results = v :: (pre ++ [rk]))
    (hpre : ∀ r ∈ pre, r.success = true) (hrk : rk.success = false) :
    pm.validate_input a = Except.ok v ∧ v.success = true ∧
    out.retval = false ∧
    out.trace = ((pre ++ [rk]).map fun r => Event.funcCall r.step) ++
      (if pre.any (fun s => s.step.rollback_func.isSome) then
        Event.rollbackCall pre :: compTraceOf pre
      else []) := by
  cases hv : pm.validate_input a with
  | error e =>
    rw [(run_error_iff pm st a w e).mpr hv] at hrun
    exact Except.noConfusion hrun
  | ok v2 =>
    by_cases hvs : v2.success = true
    · obtain ⟨lo, hlo, hrun2⟩ := run_ok_out pm st a w v2 hv hvs
      rw [hrun2] at hrun
      have ho : out = ⟨lo.retval, ⟨lo.results⟩, lo.world, lo.trace⟩ :=
        (Except.ok.inj hrun).symm
      subst ho
      simp only [RunOutcome.state, RunOutcome.retval, RunOutcome.trace] at hres ⊢
      obtain ⟨news, hnews⟩ := runSteps_acc a pm.get_steps w [v2] []
      rw [hlo] at hnews
      have hvv : v2 = v ∧ news = pre ++ [rk] := by
        have : v2 :: news = v :: (pre ++ [rk]) := by
          rw [← List.singleton_append, ← hnews]
          exact hres
        exact ⟨(List.cons.injEq _ _ _ _).mp this |>.1,
          (List.cons.injEq _ _ _ _).mp this |>.2⟩
      obtain ⟨hv2v, hnewseq⟩ := hvv
      subst hv2v
      have hresr : (runSteps a pm.get_steps w [v2] []).results =
          [v2] ++ (pre ++ [rk]) := by
        rw [hlo, hnews, hnewseq]
      obtain ⟨hret, htr⟩ :=
        runSteps_fail_char a pm.get_steps w [v2] [] pre rk hresr hpre hrk
      rw [hlo] at hret htr
      refine ⟨rfl, hvs, hret, ?_⟩
      rw [htr]
      simp
    · have hvf : v2.success = false := by
        cases hb : v2.success
        · rfl
        · exact absurd hb hvs
      rw [run_validate_failed pm st a w v2 hv hvf] at hrun
      have ho : out = ⟨false, ⟨[v2]⟩, w, []⟩ := (Except.ok.inj hrun).symm
      subst ho
      simp only [RunOutcome.state] at hres
      exfalso
      have : ([] : List (StepResult σ α)) = pre ++ [rk] := by
        have h2 := (List.cons.injEq v2 [] v (pre ++ [rk])).mp (by simpa using hres)
        exact h2.2
      exact absurd this.symm (by simp)

/-- Run returns False whenever some recorded result failed. -/
theorem run_false_of_failed_result (pm : ProcessManager σ α) (st : PMState σ α)
    (a : α) (w : σ) (out : RunOutcome σ α) (r : StepResult σ α)
    (hrun : run pm st a w = Except.ok out)
    (hr : r ∈ out.state._results) (hf : r.success = false) :
    out.retval = false := by
  cases hv : pm.validate_input a with
  | error e =>
    rw [(run_error_iff pm st a w e).mpr hv] at hrun
    exact Except.noConfusion hrun
  | ok v2 =>
    by_cases hvs : v2.success = true
    · obtain ⟨lo, hlo, hrun2⟩ := run_ok_out pm st a w v2 hv hvs
      rw [hrun2] at hrun
      have ho : out = ⟨lo.retval, ⟨lo.results⟩, lo.world, lo.trace⟩ :=
        (Except.ok.inj hrun).symm
      subst ho
      simp only [RunOutcome.state, RunOutcome.retval] at hr ⊢
      cases hb : lo.retval with
      | false => rfl
      | true =>
        exfalso
        obtain ⟨news, h1, _, h3true, _⟩ := runSteps_shape a pm.get_steps w [v2] []
        rw [hlo] at h1 h3true
        obtain ⟨_, hall⟩ := h3true hb
        rw [h1] at hr
        rcases List.mem_append.mp hr with hmem | hmem
        · have : r = v2 := by simpa using hmem
          rw [this] at hf
          rw [hf] at hvs
          exact Bool.noConfusion hvs
        · have := hall r hmem
          rw [this] at hf
          exact Bool.noConfusion hf
    · have hvf : v2.success = false := by
        cases hb : v2.success
        · rfl
        · exact absurd hb hvs
      rw [run_validate_failed pm st a w v2 hv hvf] at hrun
      have ho : out = ⟨false, ⟨[v2]⟩, w, []⟩ := (Except.ok.inj hrun).symm
      subst ho
      rfl

theorem getLast_append_cons (l : List Char) (x : Char) (xs : List Char) :
    (l ++ x :: xs).getLast? = (x :: xs).getLast? := by
  induction l with
  | nil => rfl
  | cons y ys ih =>
    cases hys : ys ++ x :: xs with
    | nil => exact absurd hys (by simp)
    | cons z zs =>
      rw [List.cons_append, hys, List.getLast?_cons_cons, ← hys, ih]

theorem getLast_mem_cons (x : Char) (xs : List Char) :
    ∃ ch, (x :: xs).getLast? = some ch ∧ ch ∈ x :: xs := by
  induction xs generalizing x with
  | nil => exact ⟨x, rfl, by simp⟩
  | cons y ys ih =>
    obtain ⟨ch, h1, h2⟩ := ih y
    exact ⟨ch, by rw [List.getLast?_cons_cons]; exact h1, by simp [List.mem_cons.mp h2]⟩

/-- The last character of a MAJOR.MINOR.PATCH shaped list is a digit. -/
theorem shape_getLast_digit (l : List Char) (h : IsVersionShape l) :
    ∃ ch, l.getLast? = some ch ∧ ch.isDigit = true := by
  obtain ⟨a, b, c, _, _, hc, rfl⟩ := h
  obtain ⟨c0, c2, rfl⟩ : ∃ x xs, c = x :: xs := by
    cases c with
    | nil => exact absurd rfl hc.1
    | cons x xs => exact ⟨x, xs, rfl⟩
  obtain ⟨ch, h1, h2⟩ := getLast_mem_cons c0 c2
  refine ⟨ch, ?_, hc.2 ch h2⟩
  rw [← h1]
  have : a ++ '.' :: (b ++ '.' :: (c0 :: c2)) = (a ++ '.' :: b) ++ '.' :: (c0 :: c2) := by
    simp
  rw [this, getLast_append_cons, List.getLast?_cons_cons]

/-! Concrete fixtures used by counterexamples and witnesses. -/

/-- A step that succeeds and has a compensating action. -/
def tStepOkComp : Step Unit Unit :=
  ⟨fun _ w => (Except.ok true, w), "s1", some fun _ w => (Except.ok true, w)⟩

/-- A step whose function returns a falsy value and that has a
compensating action. -/
def tStepFail : Step Unit Unit :=
  ⟨fun _ w => (Except.ok false, w), "s2", some fun _ w => (Except.ok true, w)⟩

/-- A step that succeeds and has no compensating action. -/
def tStepOkPlain : Step Unit Unit :=
  ⟨fun _ w => (Except.ok true, w), "s0", none⟩

/-- A second step that succeeds and has no compensating action. -/
def tStepOkPlain2 : Step Unit Unit :=
  ⟨fun _ w => (Except.ok true, w), "s4", none⟩

/-- A step whose function raises. -/
def tStepBoom : Step Unit Unit :=
  ⟨fun _ w => (Except.error "boom", w), "s3", none⟩

/-- The result the default validator produces. -/
def tValRes : StepResult Unit Unit :=
  ⟨validation_step Unit Unit, true, "Input validation passed", none, []⟩

/-- A failed validation result. -/
def tValFail : StepResult Unit Unit :=
  ⟨validation_step Unit Unit, false, "Invalid", none, []⟩

def cexPM : ProcessManager Unit Unit := ⟨[tStepFail], default_validate_input Unit Unit⟩

def cexR : StepResult Unit Unit := (execute_step tStepFail () ()).result

def cexOut : RunOutcome Unit Unit :=
  ⟨false, ⟨[tValRes, cexR]⟩, (), [Event.funcCall tStepFail]⟩

def w1pm : ProcessManager Unit Unit :=
  ⟨[tStepOkComp, tStepFail], default_validate_input Unit Unit⟩

def w1r1 : StepResult Unit Unit := (execute_step tStepOkComp () ()).result

def w1r2 : StepResult Unit Unit := (execute_step tStepFail () ()).result

def w1out : RunOutcome Unit Unit :=
  ⟨false, ⟨[tValRes, w1r1, w1r2]⟩, (),
    [Event.funcCall tStepOkComp, Event.funcCall tStepFail,
      Event.rollbackCall [w1r1], Event.compCall tStepOkComp]⟩

def c3pm : ProcessManager Unit Unit := ⟨[tStepBoom], default_validate_input Unit Unit⟩

def c3res : StepResult Unit Unit := (execute_step tStepBoom () ()).result

def c3out : RunOutcome Unit Unit :=
  ⟨false, ⟨[tValRes, c3res]⟩, (), [Event.funcCall tStepBoom]⟩

def c4pm : ProcessManager Unit Unit :=
  ⟨[tStepOkComp], fun _ => Except.ok tValFail⟩

def w5pm : ProcessManager Unit Unit :=
  ⟨[tStepOkPlain, tStepFail], default_validate_input Unit Unit⟩

def w5r1 : StepResult Unit Unit := (execute_step tStepOkPlain () ()).result

def w5r2 : StepResult Unit Unit := (execute_step tStepFail () ()).result

def w5out : RunOutcome Unit Unit :=
  ⟨false, ⟨[tValRes, w5r1, w5r2]⟩, (),
    [Event.funcCall tStepOkPlain, Event.funcCall tStepFail]⟩

def w6pm : ProcessManager Unit Unit :=
  ⟨[tStepOkPlain, tStepOkPlain2], default_validate_input Unit Unit⟩

def w6r1 : StepResult Unit Unit := (execute_step tStepOkPlain () ()).result

def w6r2 : StepResult Unit Unit := (execute_step tStepOkPlain2 () ()).result

def w6out : RunOutcome Unit Unit :=
  ⟨true, ⟨[tValRes, w6r1, w6r2]⟩, (),
    [Event.funcCall tStepOkPlain, Event.funcCall tStepOkPlain2]⟩

/-! Claim theorems. -/

/-- C1 counterexample: with a single step that fails and carries a
compensating action (k = 1, steps 1..k-1 trivially all succeeded), the
claim asserts that run invokes rollback with exactly the empty list of
StepResults; the engine instead skips the rollback call entirely, so
the trace contains no rollback invocation at all. -/
theorem rollback_invocation_cex :
    run cexPM ⟨[]⟩ () () = Except.ok cexOut ∧
    cexR.success = false ∧
    rollbackCallArgs cexOut.trace = [] ∧
    compCallSteps cexOut.trace = [] ∧
    ([] : List (List (StepResult Unit Unit))) ≠ [[]] :=
  ⟨rfl, rfl, rfl, rfl, by simp⟩

/-- C1 (amended): for every step sequence and arguments where steps
1..k-1 succeed and step k fails, provided at least one of steps 1..k-1
has a compensating action, run invokes rollback with exactly the
StepResults of steps 1..k-1, the compensating actions are invoked in
reverse order of completion (most recently succeeded first), and the
compensating action of the failing step k is never invoked (when no
step of 1..k-1 has a compensating action the rollback call is skipped
entirely, per the counterexample). -/
theorem rollback_exact_reverse (pm : ProcessManager σ α) (st : PMState σ α)
    (a : α) (w : σ) (out : RunOutcome σ α) (v : StepResult σ α)
    (pre : List (StepResult σ α)) (rk : StepResult σ α)
    (hrun : run pm st a w = Except.ok out)
    (hres : out.state._results = v :: (pre ++ [rk]))
    (hpre : ∀ r ∈ pre, r.success = true)
    (hrk : rk.success = false)
    (hcomp : ∃ r ∈ pre, r.step.rollback_func.isSome = true) :
    rollbackCallArgs out.trace = [pre] ∧
    compCallSteps out.trace =
      (pre.reverse.filter fun r => r.step.rollback_func.isSome).map
        fun r => r.step := by
  obtain ⟨_, _, _, htr⟩ := run_fail_decomp pm st a w out v pre rk hrun hres hpre hrk
  have hcond : pre.any (fun s => s.step.rollback_func.isSome) = true :=
    List.any_eq_true.mpr hcomp
  rw [hcond] at htr
  simp only [if_pos] at htr
  rw [htr]
  constructor
  · rw [rollbackCallArgs_append]
    rw [rollbackCallArgs_funcMap]
    simp only [rollbackCallArgs, compTraceOf]
    rw [rollbackCallArgs_compMap]
    simp
  · rw [compCallSteps_append]
    rw [compCallSteps_funcMap]
    simp only [compCallSteps, compTraceOf]
    rw [compCallSteps_compMap]
    simp

/-- C1 witness: a run of two steps where step 1 succeeds with a
compensating action and step 2 fails; rollback is invoked with exactly
the first step result and only its compensating action runs. -/
theorem rollback_exact_reverse_witness :
    rollbackCallArgs w1out.trace = [[w1r1]] ∧
    compCallSteps w1out.trace =
      (([w1r1]).reverse.filter fun r => r.step.rollback_func.isSome).map
        fun r => r.step :=
  rollback_exact_reverse w1pm ⟨[]⟩ () () w1out tValRes [w1r1] w1r2 rfl rfl
    (by intro r hr; rw [List.mem_singleton.mp hr]; rfl) rfl
    ⟨w1r1, by simp, rfl⟩

/-- C2: rollback iterates the given successful results in reverse
order; every entry whose step has a compensating action yields exactly
one compensating-action invocation, in that reverse order, regardless
of whether any compensating action returns false or raises (the
equation holds for arbitrary compensating actions, so a failure never
aborts the loop), and entries without a compensating action are
skipped without any error. -/
theorem rollback_best_effort (rs : List (StepResult σ α)) (a : α) (w : σ) :
    (rollback rs a w).2 =
      (rs.reverse.filter fun r => r.step.rollback_func.isSome).map
        fun r => Event.compCall r.step :=
  rollback_trace_eq rs a w

/-- C3: a raising action yields a failed StepResult carrying the
captured exception; a falsy return yields a failed StepResult with no
exception (the two failure channels stay distinct); run never
propagates a step exception (it returns Except.ok whenever validation
returned a result) and returns False whenever a recorded result
failed. -/
theorem failure_channels_distinct (step : Step σ α) (a : α) (w : σ) (e : Exc)
    (w2 : σ) :
    (step.func a w = (Except.error e, w2) →
      (execute_step step a w).result.success = false ∧
      (execute_step step a w).result.exception = some e) ∧
    (step.func a w = (Except.ok false, w2) →
      (execute_step step a w).result.success = false ∧
      (execute_step step a w).result.exception = none) ∧
    (∀ (pm : ProcessManager σ α) (st : PMState σ α) (v : StepResult σ α),
      pm.validate_input a = Except.ok v → ∃ o, run pm st a w = Except.ok o) ∧
    (∀ (pm : ProcessManager σ α) (st : PMState σ α) (out : RunOutcome σ α)
      (r : StepResult σ α), run pm st a w = Except.ok out →
      r ∈ out.state._results → r.success = false → out.retval = false) := by
  refine ⟨?_, ?_, ?_, ?_⟩
  · intro h
    simp [execute_step, h]
  · intro h
    simp [execute_step, h]
  · intro pm st v hv
    by_cases hvs : v.success = true
    · obtain ⟨lo, _, hrun⟩ := run_ok_out pm st a w v hv hvs
      exact ⟨_, hrun⟩
    · have hvf : v.success = false := by
        cases hb : v.success
        · rfl
        · exact absurd hb hvs
      exact ⟨_, run_validate_failed pm st a w v hv hvf⟩
  · intro pm st out r hrun hr hf
    exact run_false_of_failed_result pm st a w out r hrun hr hf

/-- C3 witness: a raising step and a falsy-returning step, and a run
containing the raising step that returns Except.ok false. -/
theorem failure_channels_distinct_witness :
    (tStepBoom.func () () = (Except.error "boom", ()) ∧
      (execute_step tStepBoom () ()).result.success = false ∧
      (execute_step tStepBoom () ()).result.exception = some "boom") ∧
    (tStepFail.func () () = (Except.ok false, ()) ∧
      (execute_step tStepFail () ()).result.success = false ∧
      (execute_step tStepFail () ()).result.exception = none) ∧
    (run c3pm ⟨[]⟩ () () = Except.ok c3out ∧ c3out.retval = false) := by
  have h1 := (failure_channels_distinct tStepBoom () () "boom" ()).1 rfl
  have h2 := (failure_channels_distinct tStepFail () () "boom" ()).2.1 rfl
  have h4 := (failure_channels_distinct tStepBoom () () "boom" ()).2.2.2 c3pm ⟨[]⟩
    c3out c3res rfl (by simp [c3out]) rfl
  exact ⟨⟨rfl, h1⟩, ⟨rfl, h2⟩, rfl, h4⟩

/-- C4: when validateInput returns a failed result, run returns False,
the result history holds exactly the validation result, the world is
untouched and the trace is empty (no step action, no rollback), and the
outcome does not depend on the step list at all (getSteps is never
consulted). -/
theorem validation_short_circuit (pm : ProcessManager σ α) (st : PMState σ α)
    (a : α) (w : σ) (v : StepResult σ α)
    (hv : pm.validate_input a = Except.ok v) (hvf : v.success = false) :
    run pm st a w = Except.ok ⟨false, ⟨[v]⟩, w, []⟩ ∧
    ∀ steps : List (Step σ α),
      run ⟨steps, pm.validate_input⟩ st a w = Except.ok ⟨false, ⟨[v]⟩, w, []⟩ := by
  refine ⟨run_validate_failed pm st a w v hv hvf, fun steps => ?_⟩
  exact run_validate_failed ⟨steps, pm.validate_input⟩ st a w v hv hvf

/-- C4 witness: a manager whose validator fails on its argument. -/
theorem validation_short_circuit_witness :
    c4pm.validate_input () = Except.ok tValFail ∧ tValFail.success = false ∧
    run c4pm ⟨[]⟩ () () = Except.ok ⟨false, ⟨[tValFail]⟩, (), []⟩ :=
  ⟨rfl, rfl, (validation_short_circuit c4pm ⟨[]⟩ () () tValFail rfl rfl).1⟩

/-- C5: when a step fails and none of the previously-successful steps
of that run has a compensating action, rollback is not invoked at all
(no rollback event, no compensating-action event in the trace) and run
returns False. -/
theorem no_compensation_skips_rollback (pm : ProcessManager σ α)
    (st : PMState σ α) (a : α) (w : σ) (out : RunOutcome σ α)
    (v : StepResult σ α) (pre : List (StepResult σ α)) (rk : StepResult σ α)
    (hrun : run pm st a w = Except.ok out)
    (hres : out.state._results = v :: (pre ++ [rk]))
    (hpre : ∀ r ∈ pre, r.success = true)
    (hrk : rk.success = false)
    (hnone : ∀ r ∈ pre, r.step.rollback_func = none) :
    out.retval = false ∧ rollbackCallArgs out.trace = [] ∧
    compCallSteps out.trace = [] := by
  obtain ⟨_, _, hret, htr⟩ := run_fail_decomp pm st a w out v pre rk hrun hres hpre hrk
  have hcond : pre.any (fun s => s.step.rollback_func.isSome) = false := by
    rw [List.any_eq_false]
    intro x hx
    simp [hnone x hx]
  rw [hcond] at htr
  simp only [Bool.false_eq_true, if_false, List.append_nil] at htr
  rw [htr]
  exact ⟨hret, rollbackCallArgs_funcMap _, compCallSteps_funcMap _⟩

/-- C5 witness: step 1 succeeds without a compensating action, step 2
fails; no rollback invocation appears in the trace. -/
theorem no_compensation_skips_rollback_witness :
    (run w5pm ⟨[]⟩ () () = Except.ok w5out ∧
      (∀ r ∈ [w5r1], r.step.rollback_func = none)) ∧
    (w5out.retval = false ∧ rollbackCallArgs w5out.trace = [] ∧
      compCallSteps w5out.trace = []) :=
  ⟨⟨rfl, by intro r hr; rw [List.mem_singleton.mp hr]; rfl⟩,
    no_compensation_skips_rollback w5pm ⟨[]⟩ () () w5out tValRes [w5r1] w5r2 rfl rfl
      (by intro r hr; rw [List.mem_singleton.mp hr]; rfl) rfl
      (by intro r hr; rw [List.mem_singleton.mp hr]; rfl)⟩

/-- C6: run first clears the result history (its outcome does not
depend on the incoming object state), then records the validation
result followed by exactly one StepResult per attempted step in the
order attempted (each result references the corresponding step of the
step list), stopping at the first failure: on a failed run the step
results are a block of successes followed by the single failing result
(so a first failure at step k leaves k+1 history entries), and the run
returns True exactly when every step of the list was attempted and
succeeded (N+1 entries for N steps, all successful). -/
theorem results_history_spec (pm : ProcessManager σ α) (st st2 : PMState σ α)
    (a : α) (w : σ) (out : RunOutcome σ α) (v : StepResult σ α)
    (hrun : run pm st a w = Except.ok out)
    (hv : pm.validate_input a = Except.ok v) (hvs : v.success = true) :
    run pm st a w = run pm st2 a w ∧
    ∃ news, out.state._results = v :: news ∧
      news.map (fun r => r.step) = pm.get_steps.take news.length ∧
      news.length ≤ pm.get_steps.length ∧
      (out.retval = true → news.length = pm.get_steps.length ∧
        ∀ r ∈ news, r.success = true) ∧
      ((news.length = pm.get_steps.length ∧ ∀ r ∈ news, r.success = true) →
        out.retval = true) ∧
      (out.retval = false → ∃ pre rk, news = pre ++ [rk] ∧
        (∀ r ∈ pre, r.success = true) ∧ rk.success = false) := by
  refine ⟨rfl, ?_⟩
  obtain ⟨lo, hlo, hrun2⟩ := run_ok_out pm st a w v hv hvs
  rw [hrun2] at hrun
  have ho : out = ⟨lo.retval, ⟨lo.results⟩, lo.world, lo.trace⟩ :=
    (Except.ok.inj hrun).symm
  subst ho
  simp only [RunOutcome.state, RunOutcome.retval]
  obtain ⟨news, h1, h2, h3true, h3false⟩ := runSteps_shape a pm.get_steps w [v] []
  rw [hlo] at h1 h3true h3false
  refine ⟨news, by rw [h1]; rfl, h2, ?_, h3true, ?_, h3false⟩
  · have hlen := congrArg List.length h2
    simp only [List.length_map, List.length_take] at hlen
    omega
  · intro ⟨hlen, hall⟩
    cases hb : lo.retval with
    | true => rfl
    | false =>
      exfalso
      obtain ⟨pre, rk, hdec, _, hrk⟩ := h3false hb
      have hmem : rk ∈ news := by
        rw [hdec]
        simp
      have := hall rk hmem
      rw [this] at hrk
      exact Bool.noConfusion hrk

/-- C6 witness: a fully successful two-step run has three history
entries (validation plus one per step), all successful, and returns
True. -/
theorem results_history_spec_witness :
    (run w6pm ⟨[]⟩ () () = Except.ok w6out ∧ w6out.retval = true ∧
      w6out.state._results = tValRes :: [w6r1, w6r2]) ∧
    (∃ news, w6out.state._results = tValRes :: news ∧
      news.map (fun r => r.step) = w6pm.get_steps.take news.length ∧
      news.length ≤ w6pm.get_steps.length ∧
      (w6out.retval = true → news.length = w6pm.get_steps.length ∧
        ∀ r ∈ news, r.success = true) ∧
      ((news.length = w6pm.get_steps.length ∧ ∀ r ∈ news, r.success = true) →
        w6out.retval = true) ∧
      (w6out.retval = false → ∃ pre rk, news = pre ++ [rk] ∧
        (∀ r ∈ pre, r.success = true) ∧ rk.success = false)) :=
  ⟨⟨rfl, rfl, rfl⟩,
    (results_history_spec w6pm ⟨[]⟩ ⟨[tValRes]⟩ () () w6out tValRes rfl rfl rfl).2⟩

/-- C7 counterexample: the version text of "1.2.3" followed by a bare
newline is accepted by the validator (Python dollar matches just before
a trailing newline), yet it is not of the MAJOR.MINOR.PATCH shape, so
validation success is not equivalent to that shape. -/
theorem version_validation_cex :
    (∃ r, vm_validate_input "1.2.3\n" = Except.ok r ∧ r.success = true) ∧
    ¬ IsVersionShape ("1.2.3\n".data) := by
  constructor
  · refine ⟨_, rfl, ?_⟩
    decide
  · intro hshape
    obtain ⟨ch, hlast, hdig⟩ := shape_getLast_digit _ hshape
    have h2 : ("1.2.3\n".data).getLast? = some '\n' := by decide
    rw [h2] at hlast
    have : '\n' = ch := Option.some.inj hlast
    rw [← this] at hdig
    exact absurd hdig (by decide)

/-- C7 (amended): the VersionManager validator returns a successful
result exactly for strings of the MAJOR.MINOR.PATCH digit shape or such
a string followed by one trailing newline (the Python dollar anchor
also matches just before a final newline); equivalently, it fails
exactly when the argument matches neither form. -/
theorem version_validation_iff (v : String) :
    (∃ r, vm_validate_input v = Except.ok r ∧ r.success = true) ↔
      (IsVersionShape v.data ∨ ∃ l2, v.data = l2 ++ ['\n'] ∧ IsVersionShape l2) := by
  constructor
  · rintro ⟨r, hr, hs⟩
    simp only [vm_validate_input, Except.ok.injEq] at hr
    rw [← hr] at hs
    simp only at hs
    exact (versionPatternMatch_iff v.data).mp hs
  · intro h
    refine ⟨_, rfl, ?_⟩
    exact (versionPatternMatch_iff v.data).mpr h

/-- C7 witness: the string "1.2.3" is accepted. -/
theorem version_validation_iff_witness :
    ∃ r, vm_validate_input "1.2.3" = Except.ok r ∧ r.success = true :=
  (version_validation_iff "1.2.3").mpr
    (Or.inl ⟨['1'], ['2'], ['3'], ⟨by decide, by decide⟩, ⟨by decide, by decide⟩,
      ⟨by decide, by decide⟩, by decide⟩)

/-- C8: when no original version token was captured at construction
time, the version-update compensating action returns False without
raising and without touching the manifest world; and a construction
whose manifest read raises captures nothing instead of propagating. -/
theorem rollback_version_degraded :
    (∀ (version : String) (w : VMWorld),
      rollback_version_update none version w = (Except.ok false, w)) ∧
    (∀ e : Exc, captureOriginalVersion (Except.error e) = none) :=
  ⟨fun _ _ => rfl, fun _ => rfl⟩

/-- C9: run guards only step actions and compensating actions; an
exception raised inside validateInput propagates to the caller of run
(run raises exactly when validateInput raises), and in particular every
run of the ErrorManager, whose validator always raises
NotImplementedError, raises instead of returning a boolean. -/
theorem validate_exception_propagates (σ2 α2 : Type) :
    (∀ (pm : ProcessManager σ2 α2) (st : PMState σ2 α2) (a : α2) (w : σ2)
      (e : Exc),
      (pm.validate_input a = Except.error e → run pm st a w = Except.error e) ∧
      (run pm st a w = Except.error e → pm.validate_input a = Except.error e)) ∧
    (∀ (st : PMState Unit Unit) (w : Unit),
      run errorManagerPM st () w = Except.error "NotImplementedError") := by
  constructor
  · intro pm st a w e
    exact ⟨fun h => (run_error_iff pm st a w e).mpr h,
      fun h => (run_error_iff pm st a w e).mp h⟩
  · intro st w
    exact (run_error_iff errorManagerPM st () w "NotImplementedError").mpr rfl

/-- C9 witness: a concrete ErrorManager run raises
NotImplementedError. -/
theorem validate_exception_propagates_witness :
    errorManagerPM.validate_input () = Except.error "NotImplementedError" ∧
    run errorManagerPM ⟨[]⟩ () () = Except.error "NotImplementedError" :=
  ⟨rfl, ((validate_exception_propagates Unit Unit).1 errorManagerPM ⟨[]⟩ () ()
    "NotImplementedError").1 rfl⟩

/-- C10: the results accessor is a pure read: it returns the stored
history and leaves the object state unchanged, so two consecutive reads
without an intervening run return identical content. -/
theorem results_accessor_pure (st : PMState σ α) :
    (results ((results st).2)).1 = (results st).1 ∧ (results st).2 = st :=
  ⟨rfl, rfl⟩

end AutoRelease
